import Mathlib

/-!
Shallow embedding of the gray-matter-rs front-matter scanner and value model.

Strings are modelled as `List Char` (`Str`).  Rust's `str::len` counts UTF-8
bytes, so a separate `byteLen` measures lengths the way the source does.
`Matter.parse` is a direct translation of `Matter::parse` in `src/matter.rs`;
each iteration of its line loop becomes one application of `scanLine`.
-/

namespace GrayMatter

abbrev Str := List Char

/-- Whitespace predicate backing Rust's `trim_end`/`trim` (the ASCII portion of
Unicode `White_Space`, which is all that the delimiters and claims exercise). -/
def rustWS (c : Char) : Bool :=
  c == ' ' || c == '\t' || c == '\n' || c == '\r' || c == '\x0b' || c == '\x0c'

/-- Rust `str::trim_end`. -/
def trimEnd (s : Str) : Str := (s.reverse.dropWhile rustWS).reverse

/-- Rust `str::trim_start`. -/
def trimStart (s : Str) : Str := s.dropWhile rustWS

/-- Rust `str::trim`. -/
def trim (s : Str) : Str := trimEnd (trimStart s)

/-- Rust `str::trim_start_matches('\n')`. -/
def trimStartNl (s : Str) : Str := s.dropWhile (fun c => c == '\n')

/-- UTF-8 size of one scalar value, as in Rust's `char::len_utf8`. -/
def charSize (c : Char) : Nat :=
  if c.val < 0x80 then 1 else if c.val < 0x800 then 2 else
  if c.val < 0x10000 then 3 else 4

/-- Rust `str::len`: the UTF-8 byte length. -/
def byteLen (s : Str) : Nat := (s.map charSize).sum

/-- Rust `str::split_once('\n')`. -/
def splitOnceNl : Str → Option (Str × Str)
  | [] => none
  | c :: rest =>
    if c = '\n' then some ([], rest)
    else
      match splitOnceNl rest with
      | some (a, b) => some (c :: a, b)
      | none => none

/-- Split at every `'\n'`; always returns at least one (possibly empty) segment. -/
def splitOnNl : Str → List Str
  | [] => [[]]
  | c :: rest =>
    if c = '\n' then [] :: splitOnNl rest
    else List.modifyHead (fun h => c :: h) (splitOnNl rest)

/-- Drop one trailing `'\r'`, as Rust's `str::lines` does per line. -/
def stripCR (s : Str) : Str := if s.getLast? = some '\r' then s.dropLast else s

/-- Rust `str::lines`: split on `'\n'`, drop a final empty segment produced by a
trailing newline, and strip one trailing `'\r'` from each line. -/
def rustLines (s : Str) : List Str :=
  if s = [] then []
  else
    let parts := splitOnNl s
    let parts := if parts.getLast? = some ([] : Str) then parts.dropLast else parts
    parts.map stripCR

/-- Rust `str::strip_suffix`: the text before the suffix, when the suffix matches. -/
def stripSuffix (s suf : Str) : Option Str :=
  if suf <:+ s then some (s.take (s.length - suf.length)) else none

/-- The dynamic value model `Pod` of `src/value/pod.rs`.  `Hash` models the
`HashMap<String, Pod>` as an association list with unique keys. -/
inductive Pod where
  | Null : Pod
  | String (s : Str) : Pod
  | Integer (i : Int) : Pod
  | Float (f : Float) : Pod
  | Boolean (b : Bool) : Pod
  | Array (xs : List Pod) : Pod
  | Hash (entries : List (Str × Pod)) : Pod

/-- `HashMap::get` on the association-list model of `Pod::Hash`. -/
def hashGet (entries : List (Str × Pod)) (k : Str) : Option Pod :=
  match entries with
  | [] => none
  | (k', v) :: rest => if k' = k then some v else hashGet rest k

/-- `impl Index<usize> for Pod` (pod.rs): `vec.get(index).unwrap_or(&NULL)` on an
array, `&NULL` on anything else. -/
def podIndexUsize (p : Pod) (index : Nat) : Pod :=
  match p with
  | Pod.Array vec => (vec.get? index).getD Pod.Null
  | _ => Pod.Null

/-- `impl Index<String> for Pod` (pod.rs): on a `Hash` it evaluates `&hash[&index]`,
whose `HashMap` indexing panics when the key is absent — modelled as `none`.
On any non-hash `Pod` it returns `&NULL`, modelled as `some Pod.Null`. -/
def podIndexString (p : Pod) (index : Str) : Option Pod :=
  match p with
  | Pod.Hash hash => hashGet hash index
  | _ => some Pod.Null

/-- Bool classifier used only to state claims about non-array pods. -/
def Pod.isArray : Pod → Bool
  | Pod.Array _ => true
  | _ => false

/-- Bool classifier used only to state claims about non-hash pods. -/
def Pod.isHash : Pod → Bool
  | Pod.Hash _ => true
  | _ => false

/-- The scanner states of `enum Part` in matter.rs. -/
inductive Part where
  | Matter : Part
  | MaybeExcerpt : Part
  | Content : Part
deriving DecidableEq

/-- The `Matter<T>` configuration struct (matter.rs); the engine type parameter
is passed separately as a function `Str → Pod`, matching `T::parse`. -/
structure Matter where
  delimiter : Str
  close_delimiter : Option Str
  excerpt_delimiter : Option Str

/-- `Matter::new()`. -/
def Matter.new : Matter := { delimiter := "---".data, close_delimiter := none, excerpt_delimiter := none }

/-- `self.close_delimiter.clone().unwrap_or_else(|| self.delimiter.clone())`. -/
def closeOf (self : Matter) : Str := self.close_delimiter.getD self.delimiter

/-- `self.excerpt_delimiter.clone().unwrap_or_else(|| self.delimiter.clone())`. -/
def excOf (self : Matter) : Str := self.excerpt_delimiter.getD self.delimiter

/-- `ParsedEntity` of entity.rs. -/
structure ParsedEntity where
  data : Option Pod
  content : Str
  excerpt : Option Str
  orig : Str
  matter : Str

/-- The mutable state of the line loop in `Matter::parse`: the `looking_at` and
`acc` locals plus the three `parsed_entity` fields the loop writes. -/
structure ScanState where
  looking_at : Part
  acc : Str
  data : Option Pod
  excerpt : Option Str
  matter : Str

/-- One iteration of the `for line in lines` loop of `Matter::parse`
(matter.rs lines 88–126): the line is end-trimmed, the current state is
dispatched, and — except when a closing delimiter ends the matter block, where
the loop `continue`s — `"\n" ++ line` is appended to the accumulator. -/
def scanLine (T : Str → Pod) (delim closeDelim excerptDelim : Str)
    (st : ScanState) (line0 : Str) : ScanState :=
  let line := trimEnd line0
  match st.looking_at with
  | Part.Matter =>
    if line = delim ∨ line = closeDelim then
      let m := trim st.acc
      if m = [] then
        { looking_at := Part.MaybeExcerpt, acc := [], data := st.data,
          excerpt := st.excerpt, matter := st.matter }
      else
        { looking_at := Part.MaybeExcerpt, acc := [], data := some (T m),
          excerpt := st.excerpt, matter := m }
    else
      { st with acc := st.acc ++ '\n' :: line }
  | Part.MaybeExcerpt =>
    if excerptDelim <:+ line then
      { looking_at := Part.Content, acc := st.acc ++ '\n' :: line, data := st.data,
        excerpt := some (trimEnd (trimStartNl st.acc ++ '\n' :: (stripSuffix line excerptDelim).getD [])),
        matter := st.matter }
    else
      { st with acc := st.acc ++ '\n' :: line }
  | Part.Content => { st with acc := st.acc ++ '\n' :: line }

/-- `Matter::parse` (matter.rs lines 53–131), as a function of the engine's
`T::parse`, the configuration and the input. -/
def Matter.parse (T : Str → Pod) (self : Matter) (input : Str) : ParsedEntity :=
  if input = [] ∨ byteLen input ≤ byteLen self.delimiter then
    { data := none, excerpt := none, content := [], orig := input, matter := [] }
  else
    let start : Part × List Str :=
      match splitOnceNl input with
      | some (firstLine, rest) =>
        if trimEnd firstLine = self.delimiter then (Part.Matter, rustLines rest)
        else (Part.MaybeExcerpt, rustLines input)
      | none => (Part.MaybeExcerpt, rustLines input)
    let stF := List.foldl (scanLine T self.delimiter (closeOf self) (excOf self))
      { looking_at := start.1, acc := [], data := none, excerpt := none, matter := [] } start.2
    { data := stF.data, excerpt := stF.excerpt, content := trimStartNl stF.acc,
      orig := input, matter := stF.matter }

/-- `ParsedEntityStruct<T>` of entity.rs. -/
structure ParsedEntityStruct (D : Type) where
  data : D
  content : Str
  excerpt : Option Str
  orig : Str
  matter : Str

/-- `Matter::parse_with_struct` (matter.rs lines 158–172); the serde
deserialization `Pod::deserialize::<D>().ok()` is a parameter `deser`. -/
def Matter.parse_with_struct {D : Type} (T : Str → Pod) (deser : Pod → Option D)
    (self : Matter) (input : Str) : Option (ParsedEntityStruct D) :=
  let parsed_entity := Matter.parse T self input
  match parsed_entity.data with
  | none => none
  | some pod =>
    match deser pod with
    | none => none
    | some data =>
      some { data := data, content := parsed_entity.content,
             excerpt := parsed_entity.excerpt, orig := parsed_entity.orig,
             matter := parsed_entity.matter }

/-- `YAML::parse` of `src/engine/yaml.rs`: the external `YamlLoader::load_from_str`
(composed with the `Yaml → Pod` conversion) is a parameter; a load failure and an
empty document list both yield `Pod::Null`. -/
def YAML.parse (loadFromStr : Str → Except Unit (List Pod)) (content : Str) : Pod :=
  match loadFromStr content with
  | Except.ok docs =>
    match docs with
    | [] => Pod.Null
    | doc :: _ => doc
  | Except.error _ => Pod.Null

/-- Engine instance used for concrete test inputs: stores the raw matter text. -/
def echoEngine : Str → Pod := fun s => Pod.String s

/-- No member line contains a newline (true of everything `rustLines` yields). -/
def NlFree (ms : List Str) : Prop := ∀ l ∈ ms, '\n' ∉ l

/-- Member lines are end-trimmed and newline-free: the shape of the lines the
scanner accumulates. -/
def GoodLines (ms : List Str) : Prop := ∀ l ∈ ms, trimEnd l = l ∧ '\n' ∉ l

/-- `joinPre ms` is `"\n" ++ l` for each line in turn: the accumulator shape. -/
def joinPre : List Str → Str
  | [] => []
  | m :: ms => '\n' :: (m ++ joinPre ms)

/-- Lines joined by single newlines. -/
def joinLines : List Str → Str
  | [] => []
  | m :: ms => m ++ joinPre ms

/-- What the loop appends to `acc` while scanning `ls` without a reset. -/
def contAcc (ls : List Str) : Str := joinPre (ls.map trimEnd)

/-- Whether the first-line inspection of `Matter::parse` enters the matter
state: the input splits at a newline and the first line end-trims to the open
delimiter. -/
def entersMatter (self : Matter) (input : Str) : Bool :=
  match splitOnceNl input with
  | some (firstLine, _) => trimEnd firstLine == self.delimiter
  | none => false

/-! ### String-primitive lemmas -/

theorem splitOnceNl_eq : ∀ {s a b : Str}, splitOnceNl s = some (a, b) →
    s = a ++ '\n' :: b ∧ '\n' ∉ a := by
  intro s
  induction s with
  | nil => intro a b h; simp [splitOnceNl] at h
  | cons c rest ih =>
    intro a b h
    by_cases hc : c = '\n'
    · subst hc
      simp [splitOnceNl] at h
      obtain ⟨ha, hb⟩ := h
      subst ha; subst hb; simp
    · rw [splitOnceNl, if_neg hc] at h
      cases h' : splitOnceNl rest with
      | none => rw [h'] at h; simp at h
      | some p =>
        obtain ⟨a', b'⟩ := p
        rw [h'] at h
        simp at h
        obtain ⟨ha, hb⟩ := h
        obtain ⟨hr, hna⟩ := ih h'
        subst ha; subst hb
        refine ⟨by rw [hr]; rfl, ?_⟩
        simp [hna]
        exact fun hh => hc hh.symm

theorem splitOnceNl_of_nlFree {s : Str} (h : '\n' ∉ s) : splitOnceNl s = none := by
  induction s with
  | nil => rfl
  | cons c rest ih =>
    rw [splitOnceNl, if_neg (by simp at h; exact fun hh => h.1 hh.symm)]
    rw [ih (by simp at h; exact h.2)]

theorem splitOnceNl_append {a b : Str} (h : '\n' ∉ a) :
    splitOnceNl (a ++ '\n' :: b) = some (a, b) := by
  induction a with
  | nil => simp [splitOnceNl]
  | cons c rest ih =>
    simp only [List.cons_append, splitOnceNl]
    rw [if_neg (by simp at h; exact fun hh => h.1 hh.symm)]
    simp only [List.append_eq]
    rw [ih (by simp at h; exact h.2)]

theorem splitOnNl_ne_nil : ∀ s : Str, splitOnNl s ≠ [] := by
  intro s
  induction s with
  | nil => simp [splitOnNl]
  | cons c rest ih =>
    rw [splitOnNl]
    split
    · simp
    · cases h : splitOnNl rest with
      | nil => exact absurd h ih
      | cons x xs => simp [h, List.modifyHead]

theorem mem_splitOnNl : ∀ {s l : Str}, l ∈ splitOnNl s → '\n' ∉ l := by
  intro s
  induction s with
  | nil => intro l h; simp [splitOnNl] at h; simp [h]
  | cons c rest ih =>
    intro l h
    rw [splitOnNl] at h
    by_cases hc : c = '\n'
    · rw [if_pos hc] at h
      rcases List.mem_cons.mp h with h' | h'
      · simp [h']
      · exact ih h'
    · rw [if_neg hc] at h
      cases hsp : splitOnNl rest with
      | nil => exact absurd hsp (splitOnNl_ne_nil rest)
      | cons x xs =>
        rw [hsp, List.modifyHead] at h
        rcases List.mem_cons.mp h with h' | h'
        · subst h'
          intro hmem
          rcases List.mem_cons.mp hmem with h'' | h''
          · exact hc h''.symm
          · exact ih (hsp ▸ List.mem_cons_self x xs) h''
        · exact ih (hsp ▸ List.mem_cons_of_mem x h')

theorem splitOnNl_append_nlFree : ∀ {m : Str} (s : Str), '\n' ∉ m →
    splitOnNl (m ++ s) = List.modifyHead (fun h => m ++ h) (splitOnNl s) := by
  intro m
  induction m with
  | nil =>
    intro s _
    cases h : splitOnNl s with
    | nil => exact absurd h (splitOnNl_ne_nil s)
    | cons x xs => simp [h, List.modifyHead]
  | cons c rest ih =>
    intro s hm
    have hc : ¬ c = '\n' := by simp at hm; exact fun hh => hm.1 hh.symm
    have hr : '\n' ∉ rest := by simp at hm; exact hm.2
    simp only [List.cons_append, splitOnNl, if_neg hc]
    simp only [List.append_eq]
    rw [ih s hr]
    cases h : splitOnNl s with
    | nil => exact absurd h (splitOnNl_ne_nil s)
    | cons x xs => simp [List.modifyHead]

theorem splitOnNl_joinLines : ∀ {ms : List Str}, NlFree ms → ms ≠ [] →
    splitOnNl (joinLines ms) = ms := by
  intro ms
  induction ms with
  | nil => intro _ h; exact absurd rfl h
  | cons m rest ih =>
    intro hnl _
    have hm : '\n' ∉ m := hnl m (List.mem_cons_self m rest)
    cases rest with
    | nil =>
      show splitOnNl (m ++ joinPre []) = [m]
      have h1 : splitOnNl (m ++ joinPre []) = List.modifyHead (fun h => m ++ h) (splitOnNl []) := by
        rw [show joinPre [] = [] from rfl]
        exact splitOnNl_append_nlFree [] hm
      rw [h1]
      simp [splitOnNl, List.modifyHead]
    | cons m' rest' =>
      show splitOnNl (m ++ joinPre (m' :: rest')) = m :: m' :: rest'
      have : joinPre (m' :: rest') = '\n' :: joinLines (m' :: rest') := by
        rw [joinPre, joinLines]
      rw [this, splitOnNl_append_nlFree _ hm, splitOnNl]
      rw [if_pos rfl]
      rw [ih (fun l hl => hnl l (List.mem_cons_of_mem m hl)) (by simp)]
      simp [List.modifyHead]

theorem trimEnd_pre (s : Str) : trimEnd s <+: s := by
  have h : (trimEnd s).reverse <:+ s.reverse := by
    rw [trimEnd, List.reverse_reverse]
    exact List.dropWhile_suffix rustWS
  exact List.reverse_suffix.mp h

theorem nlFree_trimEnd {s : Str} (h : '\n' ∉ s) : '\n' ∉ trimEnd s :=
  fun hm => h ((trimEnd_pre s).sublist.subset hm)

theorem dropWhile_dropWhile {α : Type} (p : α → Bool) :
    ∀ l : List α, (l.dropWhile p).dropWhile p = l.dropWhile p := by
  intro l
  induction l with
  | nil => rfl
  | cons a l ih =>
    rw [List.dropWhile_cons]
    by_cases h : p a = true
    · rw [if_pos h]; exact ih
    · rw [if_neg h, List.dropWhile_cons, if_neg h]

theorem trimEnd_idem (s : Str) : trimEnd (trimEnd s) = trimEnd s := by
  rw [trimEnd, trimEnd, List.reverse_reverse, dropWhile_dropWhile]

theorem head?_dropWhile_false {α : Type} {p : α → Bool} :
    ∀ {l : List α} {a : α}, (l.dropWhile p).head? = some a → p a = false := by
  intro l
  induction l with
  | nil => intro a h; simp at h
  | cons b l ih =>
    intro a h
    rw [List.dropWhile_cons] at h
    by_cases hb : p b = true
    · rw [if_pos hb] at h; exact ih h
    · rw [if_neg hb] at h
      simp at h
      rw [← h]
      exact Bool.eq_false_iff.mpr hb

theorem trimmed_getLast_ws {l : Str} {c : Char} (h : trimEnd l = l)
    (hc : l.getLast? = some c) : rustWS c = false := by
  have h1 : l.reverse.dropWhile rustWS = l.reverse := by
    have := congrArg List.reverse h
    rwa [trimEnd, List.reverse_reverse] at this
  apply head?_dropWhile_false (l := l.reverse)
  rw [h1, List.head?_reverse]
  exact hc

theorem stripCR_trimmed {l : Str} (h : trimEnd l = l) : stripCR l = l := by
  rw [stripCR]
  split
  · rename_i h'
    have := trimmed_getLast_ws h h'
    exact absurd this (by decide)
  · rfl

theorem byteLen_append (a b : Str) : byteLen (a ++ b) = byteLen a + byteLen b := by
  simp [byteLen]

theorem charSize_pos (c : Char) : 0 < charSize c := by
  rw [charSize]
  split
  · norm_num
  split
  · norm_num
  split
  · norm_num
  · norm_num

theorem byteLen_pos {s : Str} (h : s ≠ []) : 0 < byteLen s := by
  cases s with
  | nil => exact absurd rfl h
  | cons c t =>
    have h1 : byteLen (c :: t) = charSize c + byteLen t := by simp [byteLen]
    have := charSize_pos c
    omega

theorem byteLen_eq_zero {s : Str} (h : byteLen s = 0) : s = [] := by
  by_contra hne
  have := byteLen_pos hne
  omega

theorem byteLen_le_of_pre {a s : Str} (h : a <+: s) : byteLen a ≤ byteLen s := by
  obtain ⟨t, rfl⟩ := h
  rw [byteLen_append]
  omega

theorem joinPre_append (a b : List Str) : joinPre (a ++ b) = joinPre a ++ joinPre b := by
  induction a with
  | nil => rfl
  | cons m a ih => simp [joinPre, ih]

theorem trimStartNl_joinPre : ∀ {ms : List Str}, NlFree ms →
    trimStartNl (joinPre ms) = joinLines (ms.dropWhile List.isEmpty) := by
  intro ms
  induction ms with
  | nil => intro _; rfl
  | cons m ms ih =>
    intro hnl
    have hm : '\n' ∉ m := hnl m (List.mem_cons_self m ms)
    have hstep : trimStartNl (joinPre (m :: ms)) = (m ++ joinPre ms).dropWhile (fun c => c == '\n') := by
      rw [joinPre, trimStartNl, List.dropWhile_cons]
      simp
    cases m with
    | nil =>
      rw [hstep]
      simp only [List.nil_append]
      have h2 : List.dropWhile List.isEmpty (([] : Str) :: ms) = List.dropWhile List.isEmpty ms := by
        rw [List.dropWhile_cons]
        simp
      rw [h2, ← trimStartNl, ih (fun l hl => hnl l (List.mem_cons_of_mem _ hl))]
    | cons c m' =>
      have hc : (c == '\n') = false := by
        simp at hm
        exact beq_eq_false_iff_ne.mpr (fun hh => hm.1 hh.symm)
      rw [hstep]
      simp only [List.cons_append, List.dropWhile_cons, hc]
      simp [joinLines]

theorem joinLines_ne_nil {ms : List Str} (hne : ms ≠ []) (hlast : ms.getLast? ≠ some []) :
    joinLines ms ≠ [] := by
  cases ms with
  | nil => exact absurd rfl hne
  | cons m ms' =>
    cases ms' with
    | nil =>
      have hm : m ≠ [] := by
        intro h
        subst h
        exact hlast rfl
      rw [joinLines, joinPre, List.append_nil]
      exact hm
    | cons m' t =>
      rw [joinLines, joinPre]
      simp

theorem rustLines_joinLines {ms : List Str} (hms : GoodLines ms) (hne : ms ≠ [])
    (hlast : ms.getLast? ≠ some []) : rustLines (joinLines ms) = ms := by
  rw [rustLines, if_neg (joinLines_ne_nil hne hlast)]
  have hsp : splitOnNl (joinLines ms) = ms :=
    splitOnNl_joinLines (fun l hl => (hms l hl).2) hne
  simp only [hsp, if_neg hlast]
  have : ms.map stripCR = ms.map id :=
    List.map_congr_left (fun a ha => stripCR_trimmed (hms a ha).1)
  rw [this, List.map_id]

theorem nlFree_rustLines {s : Str} : NlFree (rustLines s) := by
  intro l hl
  rw [rustLines] at hl
  split at hl
  · simp at hl
  · simp only at hl
    split at hl
    · obtain ⟨l', hl', rfl⟩ := List.mem_map.mp hl
      have hmem : l' ∈ splitOnNl s := (List.dropLast_sublist (splitOnNl s)).subset hl'
      have hnl : '\n' ∉ l' := mem_splitOnNl hmem
      rw [stripCR]
      split
      · exact fun hm => hnl ((List.dropLast_sublist l').subset hm)
      · exact hnl
    · obtain ⟨l', hl', rfl⟩ := List.mem_map.mp hl
      have hnl : '\n' ∉ l' := mem_splitOnNl hl'
      rw [stripCR]
      split
      · exact fun hm => hnl ((List.dropLast_sublist l').subset hm)
      · exact hnl

/-! ### Scanner step and fold lemmas -/

theorem contAcc_nil : contAcc [] = [] := rfl

theorem contAcc_cons (l : Str) (ls : List Str) :
    contAcc (l :: ls) = '\n' :: trimEnd l ++ contAcc ls := by
  simp [contAcc, joinPre]

theorem contAcc_append (a b : List Str) : contAcc (a ++ b) = contAcc a ++ contAcc b := by
  simp [contAcc, joinPre_append]

theorem scanLine_matter_close {T : Str → Pod} {d c x : Str} {a : Str} {dt : Option Pod}
    {ex : Option Str} {m l : Str} (h : trimEnd l = d ∨ trimEnd l = c) :
    scanLine T d c x ⟨Part.Matter, a, dt, ex, m⟩ l =
      if trim a = [] then ⟨Part.MaybeExcerpt, [], dt, ex, m⟩
      else ⟨Part.MaybeExcerpt, [], some (T (trim a)), ex, trim a⟩ := by
  simp only [scanLine]
  rw [if_pos h]

theorem scanLine_matter_acc {T : Str → Pod} {d c x : Str} {a : Str} {dt : Option Pod}
    {ex : Option Str} {m l : Str} (h : ¬(trimEnd l = d ∨ trimEnd l = c)) :
    scanLine T d c x ⟨Part.Matter, a, dt, ex, m⟩ l =
      ⟨Part.Matter, a ++ '\n' :: trimEnd l, dt, ex, m⟩ := by
  simp only [scanLine]
  rw [if_neg h]

theorem scanLine_maybe_hit {T : Str → Pod} {d c x : Str} {a : Str} {dt : Option Pod}
    {ex : Option Str} {m l : Str} (h : x <:+ trimEnd l) :
    scanLine T d c x ⟨Part.MaybeExcerpt, a, dt, ex, m⟩ l =
      ⟨Part.Content, a ++ '\n' :: trimEnd l, dt,
       some (trimEnd (trimStartNl a ++ '\n' :: (stripSuffix (trimEnd l) x).getD [])), m⟩ := by
  simp only [scanLine]
  rw [if_pos h]

theorem scanLine_maybe_miss {T : Str → Pod} {d c x : Str} {a : Str} {dt : Option Pod}
    {ex : Option Str} {m l : Str} (h : ¬ x <:+ trimEnd l) :
    scanLine T d c x ⟨Part.MaybeExcerpt, a, dt, ex, m⟩ l =
      ⟨Part.MaybeExcerpt, a ++ '\n' :: trimEnd l, dt, ex, m⟩ := by
  simp only [scanLine]
  rw [if_neg h]

theorem scanLine_content {T : Str → Pod} {d c x : Str} {a : Str} {dt : Option Pod}
    {ex : Option Str} {m l : Str} :
    scanLine T d c x ⟨Part.Content, a, dt, ex, m⟩ l =
      ⟨Part.Content, a ++ '\n' :: trimEnd l, dt, ex, m⟩ := by
  simp only [scanLine]

theorem scanLine_compare (T₁ T₂ : Str → Pod) (d c x : Str) (st₁ st₂ : ScanState) (l : Str)
    (h1 : st₁.looking_at = st₂.looking_at) (h2 : st₁.acc = st₂.acc)
    (h3 : st₁.excerpt = st₂.excerpt) (h4 : st₁.matter = st₂.matter) :
    (scanLine T₁ d c x st₁ l).looking_at = (scanLine T₂ d c x st₂ l).looking_at ∧
    (scanLine T₁ d c x st₁ l).acc = (scanLine T₂ d c x st₂ l).acc ∧
    (scanLine T₁ d c x st₁ l).excerpt = (scanLine T₂ d c x st₂ l).excerpt ∧
    (scanLine T₁ d c x st₁ l).matter = (scanLine T₂ d c x st₂ l).matter := by
  obtain ⟨p₁, a₁, dt₁, e₁, m₁⟩ := st₁
  obtain ⟨p₂, a₂, dt₂, e₂, m₂⟩ := st₂
  simp only at h1 h2 h3 h4
  subst h1; subst h2; subst h3; subst h4
  cases p₁ with
  | Matter =>
    by_cases hcl : trimEnd l = d ∨ trimEnd l = c
    · rw [scanLine_matter_close hcl, scanLine_matter_close hcl]
      by_cases hm : trim a₁ = []
      · rw [if_pos hm, if_pos hm]; exact ⟨rfl, rfl, rfl, rfl⟩
      · rw [if_neg hm, if_neg hm]; exact ⟨rfl, rfl, rfl, rfl⟩
    · rw [scanLine_matter_acc hcl, scanLine_matter_acc hcl]
      exact ⟨rfl, rfl, rfl, rfl⟩
  | MaybeExcerpt =>
    by_cases hx : x <:+ trimEnd l
    · rw [scanLine_maybe_hit hx, scanLine_maybe_hit hx]
      exact ⟨rfl, rfl, rfl, rfl⟩
    · rw [scanLine_maybe_miss hx, scanLine_maybe_miss hx]
      exact ⟨rfl, rfl, rfl, rfl⟩
  | Content =>
    rw [scanLine_content, scanLine_content]
    exact ⟨rfl, rfl, rfl, rfl⟩

theorem foldl_scan_compare (T₁ T₂ : Str → Pod) (d c x : Str) :
    ∀ (ls : List Str) (st₁ st₂ : ScanState),
    st₁.looking_at = st₂.looking_at → st₁.acc = st₂.acc → st₁.excerpt = st₂.excerpt →
    st₁.matter = st₂.matter →
    (List.foldl (scanLine T₁ d c x) st₁ ls).looking_at = (List.foldl (scanLine T₂ d c x) st₂ ls).looking_at ∧
    (List.foldl (scanLine T₁ d c x) st₁ ls).acc = (List.foldl (scanLine T₂ d c x) st₂ ls).acc ∧
    (List.foldl (scanLine T₁ d c x) st₁ ls).excerpt = (List.foldl (scanLine T₂ d c x) st₂ ls).excerpt ∧
    (List.foldl (scanLine T₁ d c x) st₁ ls).matter = (List.foldl (scanLine T₂ d c x) st₂ ls).matter := by
  intro ls
  induction ls with
  | nil => intro st₁ st₂ h1 h2 h3 h4; exact ⟨h1, h2, h3, h4⟩
  | cons l ls ih =>
    intro st₁ st₂ h1 h2 h3 h4
    have hstep := scanLine_compare T₁ T₂ d c x st₁ st₂ l h1 h2 h3 h4
    exact ih (scanLine T₁ d c x st₁ l) (scanLine T₂ d c x st₂ l)
      hstep.1 hstep.2.1 hstep.2.2.1 hstep.2.2.2

theorem scanLine_notMatter_fields (T : Str → Pod) (d c x : Str) (st : ScanState) (l : Str)
    (hp : st.looking_at ≠ Part.Matter) :
    (scanLine T d c x st l).data = st.data ∧ (scanLine T d c x st l).matter = st.matter ∧
    (scanLine T d c x st l).acc = st.acc ++ '\n' :: trimEnd l ∧
    (scanLine T d c x st l).looking_at ≠ Part.Matter := by
  obtain ⟨p, a, dt, e, m⟩ := st
  simp only at hp
  cases p with
  | Matter => exact absurd rfl hp
  | MaybeExcerpt =>
    by_cases hx : x <:+ trimEnd l
    · rw [scanLine_maybe_hit hx]; exact ⟨rfl, rfl, rfl, by simp⟩
    · rw [scanLine_maybe_miss hx]; exact ⟨rfl, rfl, rfl, by simp⟩
  | Content =>
    rw [scanLine_content]; exact ⟨rfl, rfl, rfl, by simp⟩

theorem foldl_scan_notMatter (T : Str → Pod) (d c x : Str) :
    ∀ (ls : List Str) (st : ScanState), st.looking_at ≠ Part.Matter →
    (List.foldl (scanLine T d c x) st ls).data = st.data ∧
    (List.foldl (scanLine T d c x) st ls).matter = st.matter ∧
    (List.foldl (scanLine T d c x) st ls).acc = st.acc ++ contAcc ls ∧
    (List.foldl (scanLine T d c x) st ls).looking_at ≠ Part.Matter := by
  intro ls
  induction ls with
  | nil =>
    intro st hp
    exact ⟨rfl, rfl, by simp [contAcc_nil], hp⟩
  | cons l ls ih =>
    intro st hp
    have hstep := scanLine_notMatter_fields T d c x st l hp
    have hih := ih (scanLine T d c x st l) hstep.2.2.2
    refine ⟨hih.1.trans hstep.1, hih.2.1.trans hstep.2.1, ?_, hih.2.2.2⟩
    rw [List.foldl_cons, hih.2.2.1, hstep.2.2.1, contAcc_cons, List.append_assoc]

theorem foldl_scan_matterPhase (T : Str → Pod) (d c x : Str) :
    ∀ (ls : List Str), (∀ l ∈ ls, ¬(trimEnd l = d ∨ trimEnd l = c)) →
    ∀ (a : Str) (dt : Option Pod) (ex : Option Str) (m : Str),
    List.foldl (scanLine T d c x) ⟨Part.Matter, a, dt, ex, m⟩ ls =
      ⟨Part.Matter, a ++ contAcc ls, dt, ex, m⟩ := by
  intro ls
  induction ls with
  | nil => intro _ a dt ex m; simp [contAcc_nil]
  | cons l ls ih =>
    intro h a dt ex m
    rw [List.foldl_cons, scanLine_matter_acc (h l (List.mem_cons_self l ls))]
    rw [ih (fun l' hl' => h l' (List.mem_cons_of_mem l hl')) _ dt ex m]
    rw [contAcc_cons, List.append_assoc]

theorem foldl_scan_maybeMiss (T : Str → Pod) (d c x : Str) :
    ∀ (ls : List Str), (∀ l ∈ ls, ¬ x <:+ trimEnd l) →
    ∀ (a : Str) (dt : Option Pod) (ex : Option Str) (m : Str),
    List.foldl (scanLine T d c x) ⟨Part.MaybeExcerpt, a, dt, ex, m⟩ ls =
      ⟨Part.MaybeExcerpt, a ++ contAcc ls, dt, ex, m⟩ := by
  intro ls
  induction ls with
  | nil => intro _ a dt ex m; simp [contAcc_nil]
  | cons l ls ih =>
    intro h a dt ex m
    rw [List.foldl_cons, scanLine_maybe_miss (h l (List.mem_cons_self l ls))]
    rw [ih (fun l' hl' => h l' (List.mem_cons_of_mem l hl')) _ dt ex m]
    rw [contAcc_cons, List.append_assoc]

theorem scanLine_acc_cases (T : Str → Pod) (d c x : Str) (st : ScanState) (l : Str) :
    (scanLine T d c x st l).acc = st.acc ++ '\n' :: trimEnd l ∨
    (scanLine T d c x st l).acc = [] := by
  obtain ⟨p, a, dt, e, m⟩ := st
  cases p with
  | Matter =>
    by_cases hcl : trimEnd l = d ∨ trimEnd l = c
    · rw [scanLine_matter_close hcl]
      by_cases hm : trim a = []
      · rw [if_pos hm]; exact Or.inr rfl
      · rw [if_neg hm]; exact Or.inr rfl
    · rw [scanLine_matter_acc hcl]; exact Or.inl rfl
  | MaybeExcerpt =>
    by_cases hx : x <:+ trimEnd l
    · rw [scanLine_maybe_hit hx]; exact Or.inl rfl
    · rw [scanLine_maybe_miss hx]; exact Or.inl rfl
  | Content =>
    rw [scanLine_content]; exact Or.inl rfl

theorem foldl_scan_accShape (T : Str → Pod) (d c x : Str) :
    ∀ (ls : List Str), NlFree ls → ∀ (st : ScanState) (ms : List Str),
    GoodLines ms → st.acc = joinPre ms →
    ∃ ms', GoodLines ms' ∧ (List.foldl (scanLine T d c x) st ls).acc = joinPre ms' := by
  intro ls
  induction ls with
  | nil =>
    intro _ st ms hms hacc
    exact ⟨ms, hms, hacc⟩
  | cons l ls ih =>
    intro hnl st ms hms hacc
    have hnl' : NlFree ls := fun l' hl' => hnl l' (List.mem_cons_of_mem l hl')
    have hl : '\n' ∉ l := hnl l (List.mem_cons_self l ls)
    rw [List.foldl_cons]
    rcases scanLine_acc_cases T d c x st l with hc | hc
    · refine ih hnl' _ (ms ++ [trimEnd l]) ?_ ?_
      · intro e he
        rcases List.mem_append.mp he with he | he
        · exact hms e he
        · rw [List.mem_singleton.mp he]
          exact ⟨trimEnd_idem l, nlFree_trimEnd hl⟩
      · rw [hc, hacc, joinPre_append]
        simp [joinPre]
    · exact ih hnl' _ [] (by intro e he; simp at he) (by rw [hc]; rfl)

theorem scanLine_dataMatter (T : Str → Pod) (d c x : Str) (st : ScanState) (l : Str)
    (h : st.data.isSome = true ↔ st.matter ≠ []) :
    (scanLine T d c x st l).data.isSome = true ↔ (scanLine T d c x st l).matter ≠ [] := by
  obtain ⟨p, a, dt, e, m⟩ := st
  simp only at h
  cases p with
  | Matter =>
    by_cases hcl : trimEnd l = d ∨ trimEnd l = c
    · rw [scanLine_matter_close hcl]
      by_cases hm : trim a = []
      · rw [if_pos hm]; exact h
      · rw [if_neg hm]; simp [hm]
    · rw [scanLine_matter_acc hcl]; exact h
  | MaybeExcerpt =>
    by_cases hx : x <:+ trimEnd l
    · rw [scanLine_maybe_hit hx]; exact h
    · rw [scanLine_maybe_miss hx]; exact h
  | Content =>
    rw [scanLine_content]; exact h

theorem foldl_scan_dataMatter (T : Str → Pod) (d c x : Str) :
    ∀ (ls : List Str) (st : ScanState), (st.data.isSome = true ↔ st.matter ≠ []) →
    ((List.foldl (scanLine T d c x) st ls).data.isSome = true ↔
     (List.foldl (scanLine T d c x) st ls).matter ≠ []) := by
  intro ls
  induction ls with
  | nil => intro st h; exact h
  | cons l ls ih =>
    intro st h
    exact ih _ (scanLine_dataMatter T d c x st l h)

theorem scanLine_compare3 (T₁ T₂ : Str → Pod) (d c x : Str) (st₁ st₂ : ScanState) (l : Str)
    (h1 : st₁.looking_at = st₂.looking_at) (h2 : st₁.acc = st₂.acc)
    (h3 : st₁.excerpt = st₂.excerpt) :
    (scanLine T₁ d c x st₁ l).looking_at = (scanLine T₂ d c x st₂ l).looking_at ∧
    (scanLine T₁ d c x st₁ l).acc = (scanLine T₂ d c x st₂ l).acc ∧
    (scanLine T₁ d c x st₁ l).excerpt = (scanLine T₂ d c x st₂ l).excerpt := by
  obtain ⟨p₁, a₁, dt₁, e₁, m₁⟩ := st₁
  obtain ⟨p₂, a₂, dt₂, e₂, m₂⟩ := st₂
  simp only at h1 h2 h3
  subst h1; subst h2; subst h3
  cases p₁ with
  | Matter =>
    by_cases hcl : trimEnd l = d ∨ trimEnd l = c
    · rw [scanLine_matter_close hcl, scanLine_matter_close hcl]
      by_cases hm : trim a₁ = []
      · rw [if_pos hm, if_pos hm]; exact ⟨rfl, rfl, rfl⟩
      · rw [if_neg hm, if_neg hm]; exact ⟨rfl, rfl, rfl⟩
    · rw [scanLine_matter_acc hcl, scanLine_matter_acc hcl]
      exact ⟨rfl, rfl, rfl⟩
  | MaybeExcerpt =>
    by_cases hx : x <:+ trimEnd l
    · rw [scanLine_maybe_hit hx, scanLine_maybe_hit hx]
      exact ⟨rfl, rfl, rfl⟩
    · rw [scanLine_maybe_miss hx, scanLine_maybe_miss hx]
      exact ⟨rfl, rfl, rfl⟩
  | Content =>
    rw [scanLine_content, scanLine_content]
    exact ⟨rfl, rfl, rfl⟩

theorem foldl_scan_compare3 (T₁ T₂ : Str → Pod) (d c x : Str) :
    ∀ (ls : List Str) (st₁ st₂ : ScanState),
    st₁.looking_at = st₂.looking_at → st₁.acc = st₂.acc → st₁.excerpt = st₂.excerpt →
    (List.foldl (scanLine T₁ d c x) st₁ ls).looking_at = (List.foldl (scanLine T₂ d c x) st₂ ls).looking_at ∧
    (List.foldl (scanLine T₁ d c x) st₁ ls).acc = (List.foldl (scanLine T₂ d c x) st₂ ls).acc ∧
    (List.foldl (scanLine T₁ d c x) st₁ ls).excerpt = (List.foldl (scanLine T₂ d c x) st₂ ls).excerpt := by
  intro ls
  induction ls with
  | nil => intro st₁ st₂ h1 h2 h3; exact ⟨h1, h2, h3⟩
  | cons l ls ih =>
    intro st₁ st₂ h1 h2 h3
    have hstep := scanLine_compare3 T₁ T₂ d c x st₁ st₂ l h1 h2 h3
    exact ih (scanLine T₁ d c x st₁ l) (scanLine T₂ d c x st₂ l)
      hstep.1 hstep.2.1 hstep.2.2

/-! ### Parse-level lemmas -/

/-- When the first line opens a front-matter block, no line of `mls` closes it,
and `cl` closes it: the parse result decomposes into the block's trimmed text
and a scan of the remaining lines alone. -/
theorem parse_matterBlock (T : Str → Pod) (self : Matter) (input firstLine rest : Str)
    (mls : List Str) (cl : Str) (tls : List Str)
    (h1 : splitOnceNl input = some (firstLine, rest))
    (h2 : trimEnd firstLine = self.delimiter)
    (h3 : rustLines rest = mls ++ cl :: tls)
    (h4 : ∀ l ∈ mls, ¬(trimEnd l = self.delimiter ∨ trimEnd l = closeOf self))
    (h5 : trimEnd cl = self.delimiter ∨ trimEnd cl = closeOf self) :
    Matter.parse T self input =
      { data := if trim (contAcc mls) = [] then none else some (T (trim (contAcc mls))),
        content := trimStartNl ((List.foldl (scanLine T self.delimiter (closeOf self) (excOf self))
          ⟨Part.MaybeExcerpt, [], none, none, []⟩ tls).acc),
        excerpt := (List.foldl (scanLine T self.delimiter (closeOf self) (excOf self))
          ⟨Part.MaybeExcerpt, [], none, none, []⟩ tls).excerpt,
        orig := input, matter := trim (contAcc mls) } := by
  obtain ⟨hin, hna⟩ := splitOnceNl_eq h1
  have hfl : byteLen self.delimiter ≤ byteLen firstLine := by
    rw [← h2]
    exact byteLen_le_of_pre (trimEnd_pre firstLine)
  have hlen : byteLen self.delimiter < byteLen input := by
    rw [hin, byteLen_append]
    have hcons : byteLen ('\n' :: rest) = 1 + byteLen rest := by
      simp [byteLen, charSize]
    omega
  have hguard : ¬(input = [] ∨ byteLen input ≤ byteLen self.delimiter) := by
    rintro (hnil | hle)
    · rw [hnil] at hlen
      simp [byteLen] at hlen
    · omega
  rw [Matter.parse, if_neg hguard]
  simp only [h1, h2, if_true, eq_self_iff_true]
  rw [h3, List.foldl_append]
  rw [foldl_scan_matterPhase T self.delimiter (closeOf self) (excOf self) mls h4 [] none none []]
  rw [List.foldl_cons, List.nil_append, scanLine_matter_close h5]
  by_cases hm : trim (contAcc mls) = []
  · rw [if_pos hm, if_pos hm, hm]
    have hnm := foldl_scan_notMatter T self.delimiter (closeOf self) (excOf self) tls
      (⟨Part.MaybeExcerpt, [], none, none, []⟩ : ScanState) (by simp)
    rw [hnm.1, hnm.2.1]
  · rw [if_neg hm, if_neg hm]
    have hcmp := foldl_scan_compare3 T T self.delimiter (closeOf self) (excOf self) tls
      (⟨Part.MaybeExcerpt, [], some (T (trim (contAcc mls))), none, trim (contAcc mls)⟩ : ScanState)
      (⟨Part.MaybeExcerpt, [], none, none, []⟩ : ScanState) rfl rfl rfl
    have hnm := foldl_scan_notMatter T self.delimiter (closeOf self) (excOf self) tls
      (⟨Part.MaybeExcerpt, [], some (T (trim (contAcc mls))), none, trim (contAcc mls)⟩ : ScanState)
      (by simp)
    rw [hnm.1, hnm.2.1, hcmp.2.1, hcmp.2.2]

theorem content_shape_core (T : Str → Pod) (d c x : Str) (p : Part) (ls : List Str)
    (hnl : NlFree ls) :
    ∃ ms, GoodLines ms ∧
      trimStartNl ((List.foldl (scanLine T d c x) ⟨p, [], none, none, []⟩ ls).acc) = joinLines ms ∧
      ms.head? ≠ some [] := by
  obtain ⟨ms₀, hms₀, hacc⟩ := foldl_scan_accShape T d c x ls hnl
    ⟨p, [], none, none, []⟩ [] (by intro e he; simp at he) rfl
  refine ⟨ms₀.dropWhile List.isEmpty, ?_, ?_, ?_⟩
  · intro e he
    exact hms₀ e ((List.dropWhile_sublist List.isEmpty).subset he)
  · rw [hacc]
    exact trimStartNl_joinPre (fun l hl => (hms₀ l hl).2)
  · cases hh : (ms₀.dropWhile List.isEmpty).head? with
    | none => simp
    | some a =>
      have ha : List.isEmpty a = false := head?_dropWhile_false hh
      intro hcontra
      have : a = [] := by simpa using hcontra
      rw [this] at ha
      simp at ha

/-- The content field of every parse is a newline-join of end-trimmed,
newline-free lines, the first of which is nonempty. -/
theorem parse_content_shape (T : Str → Pod) (self : Matter) (input : Str) :
    ∃ ms, GoodLines ms ∧ (Matter.parse T self input).content = joinLines ms ∧
      ms.head? ≠ some [] := by
  rw [Matter.parse]
  by_cases hguard : (input = [] ∨ byteLen input ≤ byteLen self.delimiter)
  · rw [if_pos hguard]
    exact ⟨[], by intro e he; simp at he, rfl, by simp⟩
  · rw [if_neg hguard]
    cases hsp : splitOnceNl input with
    | none =>
      simp only [hsp]
      exact content_shape_core T self.delimiter (closeOf self) (excOf self)
        Part.MaybeExcerpt (rustLines input) nlFree_rustLines
    | some pr =>
      obtain ⟨fl, rest⟩ := pr
      simp only [hsp]
      by_cases hfl : trimEnd fl = self.delimiter
      · simp only [hfl, if_true, eq_self_iff_true]
        exact content_shape_core T self.delimiter (closeOf self) (excOf self)
          Part.Matter (rustLines rest) nlFree_rustLines
      · rw [if_neg hfl]
        exact content_shape_core T self.delimiter (closeOf self) (excOf self)
          Part.MaybeExcerpt (rustLines input) nlFree_rustLines

/-- If the input does not start with the open delimiter, the scanner never
enters the matter state, so `data` is `None`. -/
theorem parse_data_none (T : Str → Pod) (self : Matter) (s : Str)
    (h : ¬ self.delimiter <+: s) : (Matter.parse T self s).data = none := by
  rw [Matter.parse]
  by_cases hguard : (s = [] ∨ byteLen s ≤ byteLen self.delimiter)
  · rw [if_pos hguard]
  · rw [if_neg hguard]
    cases hsp : splitOnceNl s with
    | none =>
      simp only [hsp]
      exact (foldl_scan_notMatter T self.delimiter (closeOf self) (excOf self)
        (rustLines s) ⟨Part.MaybeExcerpt, [], none, none, []⟩ (by simp)).1
    | some pr =>
      obtain ⟨fl, rest⟩ := pr
      simp only [hsp]
      have hfl : ¬ trimEnd fl = self.delimiter := by
        intro heq
        apply h
        obtain ⟨hin, _⟩ := splitOnceNl_eq hsp
        rw [hin]
        exact (heq ▸ trimEnd_pre fl).trans ⟨'\n' :: rest, rfl⟩
      rw [if_neg hfl]
      exact (foldl_scan_notMatter T self.delimiter (closeOf self) (excOf self)
        (rustLines s) ⟨Part.MaybeExcerpt, [], none, none, []⟩ (by simp)).1

/-- `content`, `excerpt` and `matter` do not depend on the engine. -/
theorem parse_engine_agnostic (T₁ T₂ : Str → Pod) (self : Matter) (input : Str) :
    (Matter.parse T₁ self input).content = (Matter.parse T₂ self input).content ∧
    (Matter.parse T₁ self input).excerpt = (Matter.parse T₂ self input).excerpt ∧
    (Matter.parse T₁ self input).matter = (Matter.parse T₂ self input).matter := by
  rw [Matter.parse, Matter.parse]
  by_cases hguard : (input = [] ∨ byteLen input ≤ byteLen self.delimiter)
  · rw [if_pos hguard, if_pos hguard]
    exact ⟨rfl, rfl, rfl⟩
  · rw [if_neg hguard, if_neg hguard]
    have main : ∀ (p : Part) (ls : List Str),
        trimStartNl ((List.foldl (scanLine T₁ self.delimiter (closeOf self) (excOf self))
          ⟨p, [], none, none, []⟩ ls).acc) =
        trimStartNl ((List.foldl (scanLine T₂ self.delimiter (closeOf self) (excOf self))
          ⟨p, [], none, none, []⟩ ls).acc) ∧
        (List.foldl (scanLine T₁ self.delimiter (closeOf self) (excOf self))
          ⟨p, [], none, none, []⟩ ls).excerpt =
        (List.foldl (scanLine T₂ self.delimiter (closeOf self) (excOf self))
          ⟨p, [], none, none, []⟩ ls).excerpt ∧
        (List.foldl (scanLine T₁ self.delimiter (closeOf self) (excOf self))
          ⟨p, [], none, none, []⟩ ls).matter =
        (List.foldl (scanLine T₂ self.delimiter (closeOf self) (excOf self))
          ⟨p, [], none, none, []⟩ ls).matter := by
      intro p ls
      have h := foldl_scan_compare T₁ T₂ self.delimiter (closeOf self) (excOf self) ls
        ⟨p, [], none, none, []⟩ ⟨p, [], none, none, []⟩ rfl rfl rfl rfl
      exact ⟨by rw [h.2.1], h.2.2.1, h.2.2.2⟩
    cases hsp : splitOnceNl input with
    | none =>
      simp only [hsp]
      exact main Part.MaybeExcerpt (rustLines input)
    | some pr =>
      obtain ⟨fl, rest⟩ := pr
      simp only [hsp]
      by_cases hfl : trimEnd fl = self.delimiter
      · simp only [hfl, if_true, eq_self_iff_true]
        exact main Part.Matter (rustLines rest)
      · rw [if_neg hfl]
        exact main Part.MaybeExcerpt (rustLines input)

theorem getLast?_joinPre_nl : ∀ {ms : List Str}, ms ≠ [] → ms.getLast? = some [] →
    (joinPre ms).getLast? = some '\n' := by
  intro ms
  induction ms with
  | nil => intro h _; exact absurd rfl h
  | cons x ms ih =>
    intro _ hlast
    cases ms with
    | nil =>
      have hx : x = [] := by simpa using hlast
      rw [hx]
      rfl
    | cons y t =>
      have hlast' : (y :: t).getLast? = some [] := by
        rwa [List.getLast?_cons_cons] at hlast
      have hne : joinPre (y :: t) ≠ [] := by rw [joinPre]; simp
      have hJ := ih (by simp) hlast'
      have : joinPre (x :: y :: t) = ('\n' :: x) ++ joinPre (y :: t) := by
        rw [joinPre]; rfl
      rw [this, List.getLast?_append_of_ne_nil _ hne, hJ]

theorem joinLines_getLast_nl : ∀ {ms : List Str}, ms.getLast? = some [] →
    joinLines ms = [] ∨ (joinLines ms).getLast? = some '\n' := by
  intro ms
  cases ms with
  | nil => intro h; simp at h
  | cons m ms' =>
    intro hlast
    cases ms' with
    | nil =>
      have hm : m = [] := by simpa using hlast
      rw [hm]
      exact Or.inl rfl
    | cons y t =>
      have hlast' : (y :: t).getLast? = some [] := by
        rwa [List.getLast?_cons_cons] at hlast
      have hne : joinPre (y :: t) ≠ [] := by rw [joinPre]; simp
      have hJ := getLast?_joinPre_nl (by simp) hlast'
      right
      rw [joinLines, List.getLast?_append_of_ne_nil _ hne, hJ]

/-- Scanning the joined lines again reproduces them: the common tail of the
reparse argument. -/
theorem reparse_tail (T : Str → Pod) (self : Matter) (ms : List Str)
    (hms : GoodLines ms) (hne : ms ≠ []) (hhd : ms.head? ≠ some [])
    (hlast : ms.getLast? ≠ some []) :
    trimStartNl ((List.foldl (scanLine T self.delimiter (closeOf self) (excOf self))
      ⟨Part.MaybeExcerpt, [], none, none, []⟩ (rustLines (joinLines ms))).acc) = joinLines ms := by
  rw [rustLines_joinLines hms hne hlast]
  have hfold := foldl_scan_notMatter T self.delimiter (closeOf self) (excOf self) ms
    ⟨Part.MaybeExcerpt, [], none, none, []⟩ (by simp)
  rw [hfold.2.2.1]
  have hca : contAcc ms = joinPre ms := by
    rw [contAcc]
    have : ms.map trimEnd = ms.map id := List.map_congr_left (fun a ha => (hms a ha).1)
    rw [this, List.map_id]
  rw [List.nil_append, hca, trimStartNl_joinPre (fun l hl => (hms l hl).2)]
  cases ms with
  | nil => exact absurd rfl hne
  | cons m ms' =>
    have hm : m.isEmpty = false := by
      have : m ≠ [] := fun h => hhd (by rw [h]; rfl)
      simpa using this
    rw [List.dropWhile_cons, hm]
    simp

/-- Re-parsing a join of good lines (nonempty first and last, longer than the
delimiter, not delimiter-opened) leaves it unchanged. -/
theorem reparse_joinLines (T : Str → Pod) (self : Matter) (ms : List Str)
    (hms : GoodLines ms) (hhd : ms.head? ≠ some []) (hlast : ms.getLast? ≠ some [])
    (hlen : byteLen self.delimiter < byteLen (joinLines ms))
    (hp : ¬ self.delimiter <+: joinLines ms) :
    (Matter.parse T self (joinLines ms)).content = joinLines ms := by
  cases ms with
  | nil => simp [joinLines, byteLen] at hlen
  | cons m ms' =>
    have hguard : ¬(joinLines (m :: ms') = [] ∨
        byteLen (joinLines (m :: ms')) ≤ byteLen self.delimiter) := by
      rintro (hnil | hle)
      · rw [hnil] at hlen
        simp [byteLen] at hlen
      · omega
    rw [Matter.parse, if_neg hguard]
    have hm_nl : '\n' ∉ m := (hms m (List.mem_cons_self m ms')).2
    have hm_trim : trimEnd m = m := (hms m (List.mem_cons_self m ms')).1
    cases ms' with
    | nil =>
      have hsp : splitOnceNl (joinLines [m]) = none := by
        apply splitOnceNl_of_nlFree
        simp [joinLines, joinPre, hm_nl]
      simp only [hsp]
      exact reparse_tail T self [m] hms (by simp) hhd hlast
    | cons m₂ t =>
      have hform : joinLines (m :: m₂ :: t) = m ++ '\n' :: joinLines (m₂ :: t) := by
        rw [joinLines, joinPre, joinLines]
      have hsp : splitOnceNl (joinLines (m :: m₂ :: t)) = some (m, joinLines (m₂ :: t)) := by
        rw [hform]
        exact splitOnceNl_append hm_nl
      simp only [hsp]
      have hfl : ¬ trimEnd m = self.delimiter := by
        intro heq
        apply hp
        rw [hm_trim] at heq
        rw [hform, ← heq]
        exact ⟨'\n' :: joinLines (m₂ :: t), rfl⟩
      rw [if_neg hfl]
      exact reparse_tail T self (m :: m₂ :: t) hms (by simp) hhd hlast

/-- Every line of a re-split of joined good lines is end-trimmed. -/
theorem trimmed_mem_rustLines_joinLines {ms : List Str} {l : Str}
    (hms : GoodLines ms) (h : l ∈ rustLines (joinLines ms)) : trimEnd l = l := by
  by_cases hj : joinLines ms = []
  · rw [hj] at h
    simp [rustLines] at h
  · have hne : ms ≠ [] := by
      intro hcontra
      rw [hcontra] at hj
      exact hj rfl
    rw [rustLines, if_neg hj] at h
    simp only at h
    rw [splitOnNl_joinLines (fun e he => (hms e he).2) hne] at h
    have hmem : ∀ l', l' ∈ ms → l = stripCR l' → trimEnd l = l := by
      intro l' hl' heq
      rw [heq, stripCR_trimmed (hms l' hl').1]
      exact (hms l' hl').1
    split at h
    · obtain ⟨l', hl', heq⟩ := List.mem_map.mp h
      exact hmem l' ((List.dropLast_sublist ms).subset hl') heq.symm
    · obtain ⟨l', hl', heq⟩ := List.mem_map.mp h
      exact hmem l' hl' heq.symm

theorem foldl_scan_contentPhase (T : Str → Pod) (d c x : Str) :
    ∀ (ls : List Str) (a : Str) (dt : Option Pod) (ex : Option Str) (m : Str),
    List.foldl (scanLine T d c x) ⟨Part.Content, a, dt, ex, m⟩ ls =
      ⟨Part.Content, a ++ contAcc ls, dt, ex, m⟩ := by
  intro ls
  induction ls with
  | nil => intro a dt ex m; simp [contAcc_nil]
  | cons l ls ih =>
    intro a dt ex m
    rw [List.foldl_cons, scanLine_content, ih]
    rw [contAcc_cons, List.append_assoc]

/-- A full excerpt-scanning run: lines before `ml` miss the excerpt delimiter,
`ml` ends with it, and the rest is content. -/
theorem maybeExcerpt_run (T : Str → Pod) (d c x : Str) (pls : List Str) (ml : Str)
    (tls : List Str) (h3 : ∀ l ∈ pls, ¬ x <:+ trimEnd l) (h4 : x <:+ trimEnd ml) :
    List.foldl (scanLine T d c x) ⟨Part.MaybeExcerpt, [], none, none, []⟩ (pls ++ ml :: tls) =
      ⟨Part.Content, contAcc (pls ++ ml :: tls), none,
       some (trimEnd (trimStartNl (contAcc pls) ++ '\n' :: (stripSuffix (trimEnd ml) x).getD [])),
       []⟩ := by
  rw [List.foldl_append]
  rw [foldl_scan_maybeMiss T d c x pls h3 [] none none []]
  rw [List.nil_append, List.foldl_cons, scanLine_maybe_hit h4]
  rw [foldl_scan_contentPhase T d c x tls]
  rw [contAcc_append, contAcc_cons, List.append_assoc]

/-! ### Claim theorems -/

/-- Counterexample to claim C1 as stated.  In `"---\na \nb\n---\nx"` the text
strictly between the delimiter lines is `"a \nb"`, which is already trimmed as
a whole, yet `matter` is `"a\nb"`: the scanner end-trims every block line, so
the interior trailing space is removed, not stored.  And in
`"---\na\n  ---\nb\n---\nx"` the line `"  ---"` has trimmed content equal to
the delimiter, so per the claim it closes the block (making `matter = "a"`),
but the code tests only end-trimmed content, keeps the line in the block, and
produces `matter = "a\n  ---\nb"`. -/
theorem claim1_counterexample :
    (Matter.parse echoEngine Matter.new "---\na \nb\n---\nx".data).matter = "a\nb".data ∧
    trim "a \nb".data = "a \nb".data ∧
    "a\nb".data ≠ "a \nb".data ∧
    trim "  ---".data = "---".data ∧
    (Matter.parse echoEngine Matter.new "---\na\n  ---\nb\n---\nx".data).matter
      = "a\n  ---\nb".data :=
  ⟨by decide, by decide, by decide, by decide, by decide⟩

/-- Claim C1 as amended: when the first line end-trims to the open delimiter
and a later line end-trims to the close (or open) delimiter — end-trimmed, not
fully trimmed, so leading whitespace disqualifies a closing line — `matter` is
the text strictly between those two delimiter lines with every line trimmed of
trailing whitespace as it is scanned and the block then trimmed as a whole (so
interior trailing whitespace is removed rather than preserved), and no part of
the block reaches `content`, which is computed from the lines after the
closing delimiter line alone. -/
theorem claim1_matter_between_delimiters (T : Str → Pod) (self : Matter)
    (input firstLine rest : Str) (mls : List Str) (cl : Str) (tls : List Str)
    (h1 : splitOnceNl input = some (firstLine, rest))
    (h2 : trimEnd firstLine = self.delimiter)
    (h3 : rustLines rest = mls ++ cl :: tls)
    (h4 : ∀ l ∈ mls, ¬(trimEnd l = self.delimiter ∨ trimEnd l = closeOf self))
    (h5 : trimEnd cl = self.delimiter ∨ trimEnd cl = closeOf self) :
    (Matter.parse T self input).matter = trim (contAcc mls) ∧
    (Matter.parse T self input).content =
      trimStartNl ((List.foldl (scanLine T self.delimiter (closeOf self) (excOf self))
        ⟨Part.MaybeExcerpt, [], none, none, []⟩ tls).acc) := by
  rw [parse_matterBlock T self input firstLine rest mls cl tls h1 h2 h3 h4 h5]
  exact ⟨rfl, rfl⟩

/-- Witness for C1 at a concrete document. -/
theorem claim1_witness :
    (Matter.parse echoEngine Matter.new "---\nabc\n---\nbody".data).matter = "abc".data ∧
    (Matter.parse echoEngine Matter.new "---\nabc\n---\nbody".data).content = "body".data := by
  have h := claim1_matter_between_delimiters echoEngine Matter.new
    "---\nabc\n---\nbody".data "---".data "abc\n---\nbody".data
    ["abc".data] "---".data ["body".data]
    (by decide) (by decide) (by decide) (by decide) (by decide)
  exact ⟨h.1.trans (by decide), h.2.trans (by decide)⟩

/-- Claim C6: an input whose byte length is at most the open delimiter's byte
length yields empty content, no data and no excerpt. -/
theorem claim6_short_input (T : Str → Pod) (self : Matter) (input : Str)
    (h : byteLen input ≤ byteLen self.delimiter) :
    (Matter.parse T self input).content = [] ∧
    (Matter.parse T self input).data = none ∧
    (Matter.parse T self input).excerpt = none := by
  rw [Matter.parse, if_pos (Or.inr h)]
  exact ⟨rfl, rfl, rfl⟩

/-- Witness for C6 at a concrete short input. -/
theorem claim6_witness :
    byteLen "ab".data ≤ byteLen Matter.new.delimiter ∧
    ((Matter.parse echoEngine Matter.new "ab".data).content = [] ∧
     (Matter.parse echoEngine Matter.new "ab".data).data = none ∧
     (Matter.parse echoEngine Matter.new "ab".data).excerpt = none) :=
  ⟨by decide, claim6_short_input echoEngine Matter.new "ab".data (by decide)⟩

/-- Claim C7: with the default configuration, rogue delimiter lines after the
closed block stay in `content`; the concrete document from the spec parses to
`matter = "name: bar"` and `content = "---\n---"`, for every engine. -/
theorem claim7_rogue_delimiter (T : Str → Pod) :
    (Matter.parse T Matter.new "---\nname: bar\n---\n---\n---".data).matter = "name: bar".data ∧
    (Matter.parse T Matter.new "---\nname: bar\n---\n---\n---".data).content = "---\n---".data := by
  have h := parse_engine_agnostic T echoEngine Matter.new "---\nname: bar\n---\n---\n---".data
  exact ⟨h.2.2.trans (by decide), h.1.trans (by decide)⟩

/-- Counterexample to claim C8: reading an absent key of a `Pod::Hash` does not
return `Pod::Null`; the underlying `HashMap` indexing panics (modelled `none`). -/
theorem claim8_counterexample :
    podIndexString (Pod.Hash [("a".data, Pod.Integer 1)]) "b".data = none := rfl

/-- Claim C8 as amended: out-of-bounds array reads and usize reads of non-array
pods yield `Null`; string reads of non-hash pods yield `&NULL`; but a string
read of a hash whose key is absent panics instead of yielding `Null`. -/
theorem claim8_amended :
    (∀ (xs : List Pod) (i : Nat), xs.length ≤ i → podIndexUsize (Pod.Array xs) i = Pod.Null) ∧
    (∀ (p : Pod) (i : Nat), p.isArray = false → podIndexUsize p i = Pod.Null) ∧
    (∀ (p : Pod) (k : Str), p.isHash = false → podIndexString p k = some Pod.Null) ∧
    (∀ (entries : List (Str × Pod)) (k : Str), hashGet entries k = none →
      podIndexString (Pod.Hash entries) k = none) := by
  refine ⟨?_, ?_, ?_, ?_⟩
  · intro xs i h
    have : xs.get? i = none := List.get?_eq_none.mpr h
    rw [podIndexUsize, this]
    rfl
  · intro p i h
    cases p with
    | Array xs => simp [Pod.isArray] at h
    | Null => rfl
    | String s => rfl
    | Integer n => rfl
    | Float f => rfl
    | Boolean b => rfl
    | Hash entries => rfl
  · intro p k h
    cases p with
    | Hash entries => simp [Pod.isHash] at h
    | Null => rfl
    | String s => rfl
    | Integer n => rfl
    | Float f => rfl
    | Boolean b => rfl
    | Array xs => rfl
  · intro entries k h
    rw [podIndexString]
    exact h

/-- Witness for C8 at concrete pods. -/
theorem claim8_witness :
    podIndexUsize (Pod.Array [Pod.Integer 7]) 3 = Pod.Null ∧
    podIndexUsize (Pod.Boolean true) 0 = Pod.Null ∧
    podIndexString (Pod.Integer 5) "k".data = some Pod.Null ∧
    podIndexString (Pod.Hash [("a".data, Pod.Null)]) "zz".data = none :=
  ⟨claim8_amended.1 [Pod.Integer 7] 3 (by decide),
   claim8_amended.2.1 (Pod.Boolean true) 0 rfl,
   claim8_amended.2.2.1 (Pod.Integer 5) "k".data rfl,
   claim8_amended.2.2.2 [("a".data, Pod.Null)] "zz".data rfl⟩

/-- Claim C9: for every engine, configuration and input, the parse result has
`data.isSome` exactly when `matter` is a non-empty string. -/
theorem claim9_data_iff_matter (T : Str → Pod) (self : Matter) (input : Str) :
    ((Matter.parse T self input).data.isSome = true ↔
     (Matter.parse T self input).matter ≠ []) := by
  rw [Matter.parse]
  by_cases hguard : (input = [] ∨ byteLen input ≤ byteLen self.delimiter)
  · rw [if_pos hguard]
    simp
  · rw [if_neg hguard]
    cases hsp : splitOnceNl input with
    | none =>
      simp only [hsp]
      exact foldl_scan_dataMatter T self.delimiter (closeOf self) (excOf self)
        (rustLines input) ⟨Part.MaybeExcerpt, [], none, none, []⟩ (by simp)
    | some pr =>
      obtain ⟨fl, rest⟩ := pr
      simp only [hsp]
      by_cases hfl : trimEnd fl = self.delimiter
      · simp only [hfl, if_true, eq_self_iff_true]
        exact foldl_scan_dataMatter T self.delimiter (closeOf self) (excOf self)
          (rustLines rest) ⟨Part.Matter, [], none, none, []⟩ (by simp)
      · rw [if_neg hfl]
        exact foldl_scan_dataMatter T self.delimiter (closeOf self) (excOf self)
          (rustLines input) ⟨Part.MaybeExcerpt, [], none, none, []⟩ (by simp)

/-- Counterexample to claim C2: with a (modelled external) YAML loader that
rejects the block text, the top-level parse returns `data = Some(Pod::Null)`,
not `data = None` — `isSome` is `true`. -/
theorem claim2_counterexample :
    (Matter.parse (YAML.parse (fun _ => Except.error ())) Matter.new
      "---\nx\n---\nb".data).data = some Pod.Null ∧
    (Matter.parse (YAML.parse (fun _ => Except.error ())) Matter.new
      "---\nx\n---\nb".data).data.isSome = true :=
  ⟨rfl, rfl⟩

/-- Claim C2 as amended: an adapter parse failure never escapes as an error —
the YAML engine converts it to the `Null` value — but the parse result then has
`data = Some(Null)` (not `None`) whenever the trimmed block text is non-empty. -/
theorem claim2_adapter_failure_absorbed (loadFromStr : Str → Except Unit (List Pod))
    (self : Matter) (input firstLine rest : Str) (mls : List Str) (cl : Str) (tls : List Str)
    (h1 : splitOnceNl input = some (firstLine, rest))
    (h2 : trimEnd firstLine = self.delimiter)
    (h3 : rustLines rest = mls ++ cl :: tls)
    (h4 : ∀ l ∈ mls, ¬(trimEnd l = self.delimiter ∨ trimEnd l = closeOf self))
    (h5 : trimEnd cl = self.delimiter ∨ trimEnd cl = closeOf self)
    (h6 : trim (contAcc mls) ≠ [])
    (h7 : loadFromStr (trim (contAcc mls)) = Except.error ()) :
    (Matter.parse (YAML.parse loadFromStr) self input).data = some Pod.Null := by
  rw [parse_matterBlock (YAML.parse loadFromStr) self input firstLine rest mls cl tls
    h1 h2 h3 h4 h5]
  show (if trim (contAcc mls) = [] then none
    else some (YAML.parse loadFromStr (trim (contAcc mls)))) = some Pod.Null
  rw [if_neg h6, YAML.parse, h7]

/-- Witness for the amended C2 at a concrete malformed block. -/
theorem claim2_witness :
    (Matter.parse (YAML.parse (fun _ => Except.error ())) Matter.new
      "---\nfoo: [\n---\nbody".data).data = some Pod.Null :=
  claim2_adapter_failure_absorbed (fun _ => Except.error ()) Matter.new
    "---\nfoo: [\n---\nbody".data "---".data "foo: [\n---\nbody".data
    ["foo: [".data] "---".data ["body".data]
    (by decide) (by decide) (by decide) (by decide) (by decide) (by decide) rfl

/-- Counterexample to claim C3: the content line `"hi "` loses its trailing
space — content lines are end-trimmed, not preserved verbatim. -/
theorem claim3_counterexample :
    (Matter.parse echoEngine Matter.new "hi \nyo".data).content = "hi\nyo".data ∧
    "hi\nyo".data ≠ "hi \nyo".data :=
  ⟨by decide, by decide⟩

/-- Claim C3 as amended: every line of the returned `content` — not only the
delimiter lines — has been trimmed of trailing whitespace (leading whitespace
is untouched); so every line of `content` is a fixed point of `trimEnd`. -/
theorem claim3_content_lines_end_trimmed (T : Str → Pod) (self : Matter) (input : Str)
    (l : Str) (hl : l ∈ rustLines ((Matter.parse T self input).content)) :
    trimEnd l = l := by
  obtain ⟨ms, hms, hc, hhd⟩ := parse_content_shape T self input
  rw [hc] at hl
  exact trimmed_mem_rustLines_joinLines hms hl

/-- Witness for the amended C3 at a concrete input. -/
theorem claim3_witness :
    "hi".data ∈ rustLines ((Matter.parse echoEngine Matter.new "hi \nyo".data).content) ∧
    trimEnd "hi".data = "hi".data :=
  ⟨by decide,
   claim3_content_lines_end_trimmed echoEngine Matter.new "hi \nyo".data "hi".data (by decide)⟩

/-- Counterexample to claim C4: when the matching line is the first scanned line
and text precedes the delimiter suffix, the excerpt begins with a newline
(`"\nbaz"`), contradicting "never begins with a newline". -/
theorem claim4_counterexample :
    (Matter.parse echoEngine Matter.new "baz---\nmore".data).excerpt =
      some ('\n' :: "baz".data) := by
  decide

/-- Claim C4 as amended: in the excerpt-scanning state — entered either
directly, when no front-matter block opens the input, or after the block's
closing delimiter line — the excerpt is the accumulated buffer with its
leading newlines dropped, then a newline, then the text before the delimiter
suffix on the matching line, the whole trimmed of trailing whitespace; only
the buffer's leading newlines are dropped, so with an empty buffer and a
nonempty preceding text the excerpt starts with a newline — and the matching
line itself stays in `content`. -/
theorem claim4_excerpt_rule (T : Str → Pod) (self : Matter) (input : Str)
    (pls : List Str) (ml : Str) (tls : List Str)
    (h0 : byteLen self.delimiter < byteLen input)
    (hentry :
      (entersMatter self input = false ∧ rustLines input = pls ++ ml :: tls) ∨
      (∃ firstLine rest mls cl,
        splitOnceNl input = some (firstLine, rest) ∧
        trimEnd firstLine = self.delimiter ∧
        rustLines rest = mls ++ cl :: (pls ++ ml :: tls) ∧
        (∀ l ∈ mls, ¬(trimEnd l = self.delimiter ∨ trimEnd l = closeOf self)) ∧
        (trimEnd cl = self.delimiter ∨ trimEnd cl = closeOf self)))
    (h3 : ∀ l ∈ pls, ¬ excOf self <:+ trimEnd l)
    (h4 : excOf self <:+ trimEnd ml) :
    (Matter.parse T self input).excerpt =
      some (trimEnd (trimStartNl (contAcc pls) ++ '\n' ::
        (stripSuffix (trimEnd ml) (excOf self)).getD [])) ∧
    (Matter.parse T self input).content = trimStartNl (contAcc (pls ++ ml :: tls)) := by
  rcases hentry with ⟨h1, h2⟩ | ⟨firstLine, rest, mls, cl, hs1, hs2, hs3, hs4, hs5⟩
  · have hne : input ≠ [] := by
      intro hcontra
      rw [hcontra] at h0
      simp [byteLen] at h0
    have hguard : ¬(input = [] ∨ byteLen input ≤ byteLen self.delimiter) := by
      rintro (hnil | hle)
      · exact hne hnil
      · omega
    rw [Matter.parse, if_neg hguard]
    cases hsp : splitOnceNl input with
    | none =>
      simp only [hsp]
      rw [h2, maybeExcerpt_run T self.delimiter (closeOf self) (excOf self) pls ml tls h3 h4]
      exact ⟨rfl, rfl⟩
    | some pr =>
      obtain ⟨fl, rest⟩ := pr
      have hfl : ¬ trimEnd fl = self.delimiter := by
        intro heq
        rw [entersMatter, hsp] at h1
        simp only [beq_iff_eq] at h1
        exact absurd heq (by simpa using h1)
      simp only [hsp]
      rw [if_neg hfl]
      rw [h2, maybeExcerpt_run T self.delimiter (closeOf self) (excOf self) pls ml tls h3 h4]
      exact ⟨rfl, rfl⟩
  · rw [parse_matterBlock T self input firstLine rest mls cl (pls ++ ml :: tls)
      hs1 hs2 hs3 hs4 hs5]
    rw [maybeExcerpt_run T self.delimiter (closeOf self) (excOf self) pls ml tls h3 h4]
    exact ⟨rfl, rfl⟩

/-- Witness for the amended C4: the excerpt scan after a closed front-matter
block, with the excerpt delimiter sharing its line with preceding text. -/
theorem claim4_witness :
    (Matter.parse echoEngine
      { delimiter := "---".data, close_delimiter := none,
        excerpt_delimiter := some "<!-- cut -->".data }
      "---\nk: v\n---\nfoo\nbar\nbaz<!-- cut -->\nmore".data).excerpt
      = some "foo\nbar\nbaz".data ∧
    (Matter.parse echoEngine
      { delimiter := "---".data, close_delimiter := none,
        excerpt_delimiter := some "<!-- cut -->".data }
      "---\nk: v\n---\nfoo\nbar\nbaz<!-- cut -->\nmore".data).content =
      "foo\nbar\nbaz<!-- cut -->\nmore".data := by
  have h := claim4_excerpt_rule echoEngine
    { delimiter := "---".data, close_delimiter := none,
      excerpt_delimiter := some "<!-- cut -->".data }
    "---\nk: v\n---\nfoo\nbar\nbaz<!-- cut -->\nmore".data
    ["foo".data, "bar".data] "baz<!-- cut -->".data ["more".data]
    (by decide)
    (Or.inr ⟨"---".data, "k: v\n---\nfoo\nbar\nbaz<!-- cut -->\nmore".data,
      ["k: v".data], "---".data,
      by decide, by decide, by decide, by decide, by decide⟩)
    (by decide) (by decide)
  exact ⟨h.1.trans (by decide), h.2.trans (by decide)⟩

/-- Counterexample to claim C5: the document `"---\nx\n---\nhi"` parses
successfully with `content = "hi"`, which starts with no delimiter — yet
re-parsing `"hi"` (no longer than the delimiter) returns empty content, so
`content` is not a fixed point for short contents. -/
theorem claim5_counterexample :
    (Matter.parse echoEngine Matter.new "---\nx\n---\nhi".data).data.isSome = true ∧
    (Matter.parse echoEngine Matter.new "---\nx\n---\nhi".data).content = "hi".data ∧
    ¬ Matter.new.delimiter <+: "hi".data ∧
    byteLen "hi".data ≤ byteLen Matter.new.delimiter ∧
    (Matter.parse echoEngine Matter.new "hi".data).content = [] ∧
    ("hi".data : Str) ≠ [] :=
  ⟨by decide, by decide, by decide, by decide, by decide, by decide⟩

/-- Claim C5 as amended: re-parsing the `content` of a successfully parsed
document that does not start with the open delimiter always yields
`data = None`; and `content` is a fixed point provided its byte length exceeds
the delimiter's and it does not end in a newline (short contents collapse to
`""` under the fast-reject guard, and a trailing newline is dropped by the line
splitter). -/
theorem claim5_reparse_content (T : Str → Pod) (self : Matter) (input : Str)
    (_hs : (Matter.parse T self input).data.isSome = true)
    (hp : ¬ self.delimiter <+: (Matter.parse T self input).content) :
    (Matter.parse T self ((Matter.parse T self input).content)).data = none ∧
    (byteLen self.delimiter < byteLen ((Matter.parse T self input).content) →
     ((Matter.parse T self input).content).getLast? ≠ some '\n' →
     (Matter.parse T self ((Matter.parse T self input).content)).content =
       (Matter.parse T self input).content) := by
  refine ⟨parse_data_none T self _ hp, ?_⟩
  intro hlen hnl
  obtain ⟨ms, hms, hc, hhd⟩ := parse_content_shape T self input
  rw [hc] at hlen hnl hp ⊢
  refine reparse_joinLines T self ms hms hhd ?_ hlen hp
  intro hlast
  rcases joinLines_getLast_nl hlast with hnil | hend
  · rw [hnil] at hlen
    simp [byteLen] at hlen
  · exact hnl hend

/-- Witness for the amended C5 at a concrete document. -/
theorem claim5_witness :
    (Matter.parse echoEngine Matter.new "---\nx\n---\nhello".data).content = "hello".data ∧
    (Matter.parse echoEngine Matter.new "hello".data).data = none ∧
    (Matter.parse echoEngine Matter.new "hello".data).content = "hello".data := by
  have hc : (Matter.parse echoEngine Matter.new "---\nx\n---\nhello".data).content
      = "hello".data := by decide
  have h := claim5_reparse_content echoEngine Matter.new "---\nx\n---\nhello".data
    (by decide) (by rw [hc]; decide)
  rw [hc] at h
  exact ⟨hc, h.1, h.2 (by decide) (by decide)⟩

/-- Claim C10: `parse_with_struct` refines `parse` — on success it copies
`content`, `excerpt`, `orig` and `matter` verbatim from the `parse` result, and
it returns `None` exactly when `parse` found no data or the deserialization of
the front-matter pod fails. -/
theorem claim10_refinement {D : Type} (T : Str → Pod) (deser : Pod → Option D)
    (self : Matter) (input : Str) :
    (∀ r : ParsedEntityStruct D, Matter.parse_with_struct T deser self input = some r →
      r.content = (Matter.parse T self input).content ∧
      r.excerpt = (Matter.parse T self input).excerpt ∧
      r.orig = (Matter.parse T self input).orig ∧
      r.matter = (Matter.parse T self input).matter) ∧
    (Matter.parse_with_struct T deser self input = none ↔
      (Matter.parse T self input).data = none ∨
      ∃ pod, (Matter.parse T self input).data = some pod ∧ deser pod = none) := by
  have hpe : Matter.parse_with_struct T deser self input =
      (match (Matter.parse T self input).data with
       | none => none
       | some pod =>
         match deser pod with
         | none => none
         | some d =>
           some { data := d,
                  content := (Matter.parse T self input).content,
                  excerpt := (Matter.parse T self input).excerpt,
                  orig := (Matter.parse T self input).orig,
                  matter := (Matter.parse T self input).matter }) := rfl
  rw [hpe]
  cases hd : (Matter.parse T self input).data with
  | none =>
    refine ⟨?_, ?_⟩
    · intro r hr
      simp at hr
    · simp
  | some pod =>
    cases hde : deser pod with
    | none =>
      refine ⟨?_, ?_⟩
      · intro r hr
        simp [hde] at hr
      · simp [hde]
    | some d0 =>
      refine ⟨?_, ?_⟩
      · intro r hr
        simp only [hde] at hr
        have hr2 := (Option.some.injEq _ _).mp hr
        rw [← hr2]
        exact ⟨rfl, rfl, rfl, rfl⟩
      · simp [hde]

/-- Witness for C10 at a concrete document with the identity deserializer. -/
theorem claim10_witness :
    ({ data := Pod.String "ab".data, content := "body".data, excerpt := none,
       orig := "---\nab\n---\nbody".data, matter := "ab".data } :
        ParsedEntityStruct Pod).content =
      (Matter.parse echoEngine Matter.new "---\nab\n---\nbody".data).content ∧
    ({ data := Pod.String "ab".data, content := "body".data, excerpt := none,
       orig := "---\nab\n---\nbody".data, matter := "ab".data } :
        ParsedEntityStruct Pod).excerpt =
      (Matter.parse echoEngine Matter.new "---\nab\n---\nbody".data).excerpt ∧
    ({ data := Pod.String "ab".data, content := "body".data, excerpt := none,
       orig := "---\nab\n---\nbody".data, matter := "ab".data } :
        ParsedEntityStruct Pod).orig =
      (Matter.parse echoEngine Matter.new "---\nab\n---\nbody".data).orig ∧
    ({ data := Pod.String "ab".data, content := "body".data, excerpt := none,
       orig := "---\nab\n---\nbody".data, matter := "ab".data } :
        ParsedEntityStruct Pod).matter =
      (Matter.parse echoEngine Matter.new "---\nab\n---\nbody".data).matter :=
  (claim10_refinement echoEngine (fun p => some p) Matter.new
    "---\nab\n---\nbody".data).1 _ rfl

end GrayMatter
